import Mathlib

/-!
Shallow embedding of `src/main.rs` of map-oxidize, a two-phase map/reduce
word-count pipeline, together with proofs about the embedded operations.

Modelling conventions, used throughout:
* Rust `String` text is modelled as `List Char`; `usize` counts are `Nat`
  (overflow is irrelevant to the properties considered here).
* `HashMap<String, usize>` is modelled as an association list
  `List (Token × Nat)`.  The list order stands for the map's (unspecified)
  iteration order; map equality is always stated via `alookup`, i.e. ignoring
  order.  `*m.entry(w).or_insert(0) += c` is `hmInsertAdd`, `m.insert(w, c)`
  is `hmInsert`.
* `char::is_whitespace` / `str::split_whitespace` / `str::to_lowercase` are
  modelled on the ASCII range (`isWS`, `splitWS`, `Char.toLower`), which is
  the range exercised by the program's formats and by every claim.
* Concurrency: each worker pops items off the shared queue (`Vec::pop`, so
  pops come in reverse list order) and the interleaving of the workers is
  abstracted by quantifying over schedules / permutations, as stated at each
  definition.
-/

namespace MapOxidize

/-- A token (Rust `String` contents) as a list of characters. -/
abbrev Token := List Char

/-- Characters of a Lean string literal, used to write concrete inputs. -/
def str (s : String) : Token := s.data

/-- Model of `char::is_whitespace` on the ASCII range (the characters the
program's own formats can produce). -/
def isWS (c : Char) : Bool := c = ' ' || c = '\t' || c = '\n' || c = '\r'

/-- Accumulator loop for `str::split_whitespace`: `acc` holds the current
token reversed. Runs of whitespace separate tokens; no empty tokens. -/
def splitWSGo : List Char → List Char → List Token
  | [], acc => if acc.isEmpty then [] else [acc.reverse]
  | c :: cs, acc =>
    if isWS c then
      if acc.isEmpty then splitWSGo cs [] else acc.reverse :: splitWSGo cs []
    else
      splitWSGo cs (c :: acc)

/-- Model of `str::split_whitespace` (`text.split_whitespace()` in
`count_words`, `line.split_whitespace()` in `read_map_result`). -/
def splitWS (text : List Char) : List Token := splitWSGo text []

/-- Association-list lookup, the order-insensitive view of a `HashMap`. -/
def alookup {β : Type} : List (Token × β) → Token → Option β
  | [], _ => none
  | p :: ps, w => if p.1 = w then some p.2 else alookup ps w

/-- A `HashMap<String, usize>` (`WordCountMap` / `AggregateCountMap`). -/
abbrev WCMap := List (Token × Nat)

/-- Model of `*map.entry(w).or_insert(0) += c` (used by `count_words` with
`c = 1` and by the `reduce_phase` merge loop). -/
def hmInsertAdd : WCMap → Token → Nat → WCMap
  | [], w, c => [(w, c)]
  | p :: ps, w, c => if p.1 = w then (w, p.2 + c) :: ps else p :: hmInsertAdd ps w c

/-- Model of `map.insert(w, c)` (used by `read_map_result`). -/
def hmInsert : WCMap → Token → Nat → WCMap
  | [], w, c => [(w, c)]
  | p :: ps, w, c => if p.1 = w then (w, c) :: ps else p :: hmInsert ps w c

/-- The counting loop of `count_words` applied to an already-tokenized list:
`for word in tokens { *word_counts.entry(word).or_insert(0) += 1 }`. -/
def countTokens (ts : List Token) : WCMap :=
  ts.foldl (fun m w => hmInsertAdd m w 1) []

/-- Rust `str::to_lowercase`, ASCII range. -/
def lowerTok (t : Token) : Token := t.map Char.toLower

/-- Model of `count_words` (`src/main.rs` lines 93-100): split on whitespace,
lowercase each token, count occurrences into a fresh map. -/
def count_words (text : List Char) : WCMap :=
  countTokens ((splitWS text).map lowerTok)

theorem alookup_hmInsertAdd (m : WCMap) (k w : Token) (c : Nat) :
    alookup (hmInsertAdd m k c) w =
      if w = k then some ((alookup m w).getD 0 + c) else alookup m w := by
  induction m with
  | nil =>
    by_cases h : w = k
    · subst h
      simp [hmInsertAdd, alookup]
    · simp [hmInsertAdd, alookup, h, Ne.symm h]
  | cons p ps ih =>
    by_cases hp : p.1 = k
    · by_cases hw : w = k
      · subst hw
        subst hp
        simp [hmInsertAdd, alookup]
      · have hw2 : ¬ p.1 = w := by
          rw [hp]
          exact Ne.symm hw
        simp [hmInsertAdd, hp, alookup, hw2, hw, Ne.symm hw]
    · by_cases hw : w = p.1
      · have hw1 : p.1 = w := hw.symm
        have hk : ¬ w = k := by
          rw [hw]
          exact hp
        simp [hmInsertAdd, hp, alookup, hw1, hk]
      · have hw2 : ¬ p.1 = w := fun hh => hw hh.symm
        simp [hmInsertAdd, hp, alookup, hw2, ih]

theorem alookup_countTokens_go (ts : List Token) (m : WCMap) (w : Token) :
    alookup (ts.foldl (fun m w => hmInsertAdd m w 1) m) w =
      if (alookup m w).isSome ∨ 0 < ts.count w then
        some ((alookup m w).getD 0 + ts.count w)
      else none := by
  induction ts generalizing m with
  | nil =>
    cases h : alookup m w <;> simp [h]
  | cons t ts ih =>
    simp only [List.foldl_cons]
    rw [ih, alookup_hmInsertAdd]
    by_cases hw : w = t
    · subst hw
      simp [List.count_cons]
      omega
    · have hbeq : (w == t) = false := by
        simp [beq_eq_false_iff_ne, hw]
      simp [hw, List.count_cons, hbeq]

/-- Lookup in `countTokens` is occurrence counting: absent iff the token never
occurs, otherwise the exact number of occurrences. -/
theorem alookup_countTokens (ts : List Token) (w : Token) :
    alookup (countTokens ts) w =
      if 0 < ts.count w then some (ts.count w) else none := by
  have h := alookup_countTokens_go ts [] w
  simpa [countTokens, alookup] using h

/-- C4: `count_words` tokenizes the blob on runs of whitespace, lowercases
each token, and maps every token of the result to its number of occurrences
among the lowercased tokens of the blob (absent keys never occur); in
particular tokens differing only by case collapse, and "The the THE" yields
the single key "the" with count 3. -/
theorem count_words_spec :
    (∀ (text : List Char) (w : Token),
        alookup (count_words text) w =
          if 0 < (((splitWS text).map lowerTok).count w) then
            some (((splitWS text).map lowerTok).count w)
          else none)
    ∧ alookup (count_words (str "The the THE")) (str "the") = some 3
    ∧ alookup (count_words (str "The the THE")) (str "The") = none
    ∧ count_words (str "The the THE") = [(str "the", 3)] := by
  refine ⟨fun text w => alookup_countTokens _ w, ?_, ?_, ?_⟩ <;> decide

/-- Loop body of `split_file` (`src/main.rs` lines 44-48): each line is
appended, followed by a newline, to `chunks[chunkIndex]`, and the index
advances to `(chunkIndex + 1) % C`. -/
def splitFileLoop (C : Nat) : List (List Char) → List (List Char) → Nat → List (List Char)
  | [], chunks, _ => chunks
  | l :: ls, chunks, i =>
      splitFileLoop C ls (chunks.set i ((chunks.getD i []) ++ l ++ ['\n'])) ((i + 1) % C)

/-- Model of `split_file` (lines 36-51). The readable stream is abstracted by
the list of its lines without terminators, exactly what `reader.lines()`
yields; chunks start as `C` empty strings and the index at 0. -/
def split_file (lines : List (List Char)) (C : Nat) : List (List Char) :=
  splitFileLoop C lines (List.replicate C []) 0

/-- Guarded variant of the `split_file` loop: `none` as soon as the vector
index would be out of bounds or the modulus would be zero, the two panic
sources of the Rust loop body (lines 45-47). -/
def splitFileLoopChecked (C : Nat) :
    List (List Char) → List (List Char) → Nat → Option (List (List Char))
  | [], chunks, _ => some chunks
  | l :: ls, chunks, i =>
      if i < chunks.length ∧ 0 < C then
        splitFileLoopChecked C ls (chunks.set i ((chunks.getD i []) ++ l ++ ['\n'])) ((i + 1) % C)
      else none

/-- The guarded `split_file`. -/
def split_file_checked (lines : List (List Char)) (C : Nat) : Option (List (List Char)) :=
  splitFileLoopChecked C lines (List.replicate C []) 0

/-- Elements paired with their zero-based position, starting at `i`. -/
def withIdx {α : Type} : Nat → List α → List (Nat × α)
  | _, [] => []
  | i, a :: as => (i, a) :: withIdx (i + 1) as

/-- The lines the round-robin contract sends to partition `j`: those whose
zero-based stream index is congruent to `j` mod `C`, in stream order. -/
def rrChunkLines (lines : List (List Char)) (C j : Nat) : List (List Char) :=
  ((withIdx 0 lines).filter (fun p => p.1 % C == j)).map Prod.snd

theorem getD_set_self {α : Type} :
    ∀ (l : List α) (i : Nat) (v d : α), i < l.length → (l.set i v).getD i d = v := by
  intro l
  induction l with
  | nil => intro i v d h; simp at h
  | cons a as ih =>
    intro i v d h
    cases i with
    | zero => simp [List.getD]
    | succ i =>
      have := ih i v d (by simpa using h)
      simpa [List.getD] using this

theorem getD_set_ne {α : Type} :
    ∀ (l : List α) (i j : Nat) (v d : α), i ≠ j → (l.set i v).getD j d = l.getD j d := by
  intro l
  induction l with
  | nil => intro i j v d h; simp
  | cons a as ih =>
    intro i j v d h
    cases i with
    | zero =>
      cases j with
      | zero => exact absurd rfl h
      | succ j => simp [List.getD]
    | succ i =>
      cases j with
      | zero => simp [List.getD]
      | succ j =>
        have := ih i j v d (by omega)
        simpa [List.getD] using this

theorem splitFileLoop_length (C : Nat) (ls : List (List Char)) :
    ∀ (chunks : List (List Char)) (i : Nat),
      (splitFileLoop C ls chunks i).length = chunks.length := by
  induction ls with
  | nil => intro chunks i; rfl
  | cons l ls ih => intro chunks i; simp [splitFileLoop, ih]

theorem withIdx_succ {α : Type} (as : List α) :
    ∀ i, withIdx (i + 1) as = (withIdx i as).map (fun p => (p.1 + 1, p.2)) := by
  induction as with
  | nil => intro i; rfl
  | cons a as ih => intro i; simp [withIdx, ih]

theorem withIdx_map_snd {α : Type} (as : List α) : ∀ i, (withIdx i as).map Prod.snd = as := by
  induction as with
  | nil => intro i; rfl
  | cons a as ih => intro i; simp [withIdx, ih]

theorem splitFileLoop_getD (C : Nat) (hC : 0 < C) (ls : List (List Char)) :
    ∀ (chunks : List (List Char)) (i j : Nat), chunks.length = C → i < C → j < C →
      (splitFileLoop C ls chunks i).getD j [] =
        chunks.getD j [] ++
          (((withIdx 0 ls).filter (fun p => (p.1 + i) % C == j)).map
            (fun p => p.2 ++ ['\n'])).flatten := by
  induction ls with
  | nil =>
    intro chunks i j hlen hi hj
    simp [splitFileLoop, withIdx]
  | cons l ls ih =>
    intro chunks i j hlen hi hj
    have hlen2 : (chunks.set i ((chunks.getD i []) ++ l ++ ['\n'])).length = C := by
      simpa using hlen
    have hi2 : (i + 1) % C < C := Nat.mod_lt _ hC
    have hstep :
        splitFileLoop C (l :: ls) chunks i =
          splitFileLoop C ls (chunks.set i ((chunks.getD i []) ++ l ++ ['\n'])) ((i + 1) % C) := rfl
    rw [hstep, ih _ _ _ hlen2 hi2 hj]
    have hfun :
        (fun p : Nat × List Char => (p.1 + (i + 1) % C) % C == j)
          = (fun p : Nat × List Char => ((p.1 + 1) + i) % C == j) := by
      funext p
      rw [Nat.add_mod_mod]
      have harg : p.1 + (i + 1) = p.1 + 1 + i := by omega
      rw [harg]
    have htail :
        ((withIdx 0 ls).filter (fun p => (p.1 + (i + 1) % C) % C == j)).map
            (fun p => p.2 ++ ['\n'])
          = ((withIdx 1 ls).filter (fun p => (p.1 + i) % C == j)).map
            (fun p => p.2 ++ ['\n']) := by
      rw [hfun, withIdx_succ ls 0, List.filter_map, List.map_map]
      rfl
    rw [htail]
    have hhead : withIdx 0 (l :: ls) = (0, l) :: withIdx 1 ls := rfl
    rw [hhead, List.filter_cons]
    by_cases hij : i = j
    · subst hij
      have hcond : ((0 + i) % C == i) = true := by
        simp [Nat.mod_eq_of_lt hi]
      rw [hcond]
      simp only [if_true, List.map_cons, List.flatten_cons]
      rw [getD_set_self _ _ _ _ (by omega)]
      simp [List.append_assoc]
    · have hcond : ((0 + i) % C == j) = false := by
        simp [Nat.mod_eq_of_lt hi]
        omega
      rw [hcond]
      simp only [Bool.false_eq_true, if_false]
      rw [getD_set_ne _ _ _ _ _ hij]

theorem splitFileLoopChecked_eq (C : Nat) (hC : 0 < C) (ls : List (List Char)) :
    ∀ (chunks : List (List Char)) (i : Nat), chunks.length = C → i < C →
      splitFileLoopChecked C ls chunks i = some (splitFileLoop C ls chunks i) := by
  induction ls with
  | nil => intro chunks i hlen hi; rfl
  | cons l ls ih =>
    intro chunks i hlen hi
    have hguard : i < chunks.length ∧ 0 < C := by
      constructor
      · omega
      · exact hC
    have hstep :
        splitFileLoopChecked C (l :: ls) chunks i =
          if i < chunks.length ∧ 0 < C then
            splitFileLoopChecked C ls (chunks.set i ((chunks.getD i []) ++ l ++ ['\n']))
              ((i + 1) % C)
          else none := rfl
    rw [hstep, if_pos hguard]
    exact ih _ _ (by simpa using hlen) (Nat.mod_lt _ hC)

/-- C10: with `num_chunks > 0`, the guarded loop (which fails on exactly the
out-of-bounds indexing and the zero modulus the Rust code could panic on)
never fails and agrees with the unguarded model: `chunk_index` stays below
`num_chunks` at every iteration. -/
theorem split_file_safe (lines : List (List Char)) (C : Nat) (hC : 0 < C) :
    split_file_checked lines C = some (split_file lines C) := by
  exact splitFileLoopChecked_eq C hC lines _ 0 (by simp) hC

/-- Witness for C10 at a concrete input. -/
theorem split_file_safe_witness :
    split_file_checked [str "a b", str "b c", str "d"] 2
      = some (split_file [str "a b", str "b c", str "d"] 2) :=
  split_file_safe [str "a b", str "b c", str "d"] 2 (by decide)

theorem getD_replicate_nil : ∀ (C j : Nat), (List.replicate C ([] : List Char)).getD j [] = [] := by
  intro C
  induction C with
  | zero => intro j; simp [List.getD]
  | succ C ih =>
    intro j
    cases j with
    | zero => simp [List.replicate, List.getD]
    | succ j => simp [List.replicate, List.getD]

theorem fiber_flatMap_perm {α : Type} (key : α → Nat) :
    ∀ (C : Nat) (l : List α), (∀ a ∈ l, key a < C) →
      List.Perm ((List.range C).flatMap (fun j => l.filter (fun a => key a == j))) l := by
  intro C
  induction C with
  | zero =>
    intro l hl
    have hnil : l = [] := by
      cases l with
      | nil => rfl
      | cons a as => exact absurd (hl a (by simp)) (by omega)
    subst hnil
    simp
  | succ C ih =>
    intro l hl
    rw [List.range_succ, List.flatMap_append]
    have hsingle :
        ([C] : List Nat).flatMap (fun j => l.filter (fun a => key a == j))
          = l.filter (fun a => key a == C) := by
      simp
    rw [hsingle]
    have hfibers :
        ∀ j ∈ List.range C,
          l.filter (fun a => key a == j)
            = (l.filter (fun a => !(key a == C))).filter (fun a => key a == j) := by
      intro j hj
      have hjC : j < C := List.mem_range.mp hj
      rw [List.filter_filter]
      apply List.filter_congr
      intro a _
      by_cases hk : key a = j
      · have hne : ¬ key a = C := by omega
        have hjne : ¬ j = C := by omega
        simp [hk, hne, hjne]
      · simp [hk]
    have hmap :
        (List.range C).flatMap (fun j => l.filter (fun a => key a == j))
          = (List.range C).flatMap
              (fun j => (l.filter (fun a => !(key a == C))).filter (fun a => key a == j)) := by
      rw [List.flatMap_def, List.flatMap_def]
      rw [List.map_congr_left hfibers]
    rw [hmap]
    have hl2 : ∀ a ∈ l.filter (fun a => !(key a == C)), key a < C := by
      intro a ha
      have hmem := List.mem_filter.mp ha
      have h1 : key a < C + 1 := hl a hmem.1
      have h2 : ¬ key a = C := by
        have := hmem.2
        simpa using this
      omega
    have hperm1 := ih (l.filter (fun a => !(key a == C))) hl2
    have hperm2 := hperm1.append_right (l.filter (fun a => key a == C))
    refine hperm2.trans ?_
    refine (List.perm_append_comm).trans ?_
    exact List.filter_append_perm _ l

theorem withIdx_key_ge {α : Type} :
    ∀ (as : List α) (i : Nat) (p : Nat × α), p ∈ withIdx i as → i ≤ p.1 := by
  intro as
  induction as with
  | nil => intro i p h; simp [withIdx] at h
  | cons a as ih =>
    intro i p h
    rcases List.mem_cons.mp h with h | h
    · subst h
      simp
    · have := ih (i + 1) p h
      omega

theorem withIdx_pairwise {α : Type} :
    ∀ (as : List α) (i : Nat), (withIdx i as).Pairwise (fun p q => p.1 < q.1) := by
  intro as
  induction as with
  | nil => intro i; simp [withIdx]
  | cons a as ih =>
    intro i
    refine List.Pairwise.cons ?_ (ih (i + 1))
    intro q hq
    have := withIdx_key_ge as (i + 1) q hq
    simp
    omega

theorem perm_keylt_eq {α : Type} {l₁ l₂ : List (Nat × α)} (h : List.Perm l₁ l₂)
    (h₁ : l₁.Pairwise (fun p q => p.1 < q.1)) (h₂ : l₂.Pairwise (fun p q => p.1 < q.1)) :
    l₁ = l₂ := by
  haveI : IsAntisymm (Nat × α) (fun p q => p.1 < q.1) :=
    ⟨fun a b hab hba => absurd (Nat.lt_trans hab hba) (Nat.lt_irrefl _)⟩
  exact List.eq_of_perm_of_sorted h h₁ h₂

/-- C3: with `C > 0` the chunker returns exactly `C` partitions; partition `j`
is precisely the concatenation, in stream order, of the lines whose zero-based
index is congruent to `j` mod `C`, each followed by its newline; the fibers
together are a permutation of the indexed line list, and any ordering of that
multiset sorted by original line index is the original line sequence. -/
theorem split_file_spec (lines : List (List Char)) (C : Nat) (hC : 0 < C) :
    (split_file lines C).length = C
    ∧ (∀ j, j < C →
        (split_file lines C).getD j []
          = ((rrChunkLines lines C j).map (fun l => l ++ ['\n'])).flatten)
    ∧ List.Perm
        ((List.range C).flatMap (fun j => (withIdx 0 lines).filter (fun p => p.1 % C == j)))
        (withIdx 0 lines)
    ∧ (∀ sorted : List (Nat × List Char),
        List.Perm
          ((List.range C).flatMap (fun j => (withIdx 0 lines).filter (fun p => p.1 % C == j)))
          sorted →
        sorted.Pairwise (fun p q => p.1 < q.1) →
        sorted.map Prod.snd = lines) := by
  have hperm : List.Perm
      ((List.range C).flatMap (fun j => (withIdx 0 lines).filter (fun p => p.1 % C == j)))
      (withIdx 0 lines) :=
    fiber_flatMap_perm (fun p => p.1 % C) C (withIdx 0 lines)
      (fun a _ => Nat.mod_lt _ hC)
  refine ⟨?_, ?_, hperm, ?_⟩
  · rw [split_file, splitFileLoop_length]
    simp
  · intro j hj
    rw [split_file, splitFileLoop_getD C hC lines _ 0 j (by simp) hC hj]
    have hfun : (fun p : Nat × List Char => (p.1 + 0) % C == j)
        = (fun p : Nat × List Char => p.1 % C == j) := by
      funext p
      rw [Nat.add_zero]
    rw [hfun]
    rw [getD_replicate_nil, List.nil_append, rrChunkLines, List.map_map]
    rfl
  · intro sorted hp hsorted
    have hs : sorted = withIdx 0 lines := by
      refine perm_keylt_eq (hp.symm.trans hperm) hsorted ?_
      exact withIdx_pairwise lines 0
    rw [hs, withIdx_map_snd]

/-- Witness for C3 at a concrete input. -/
theorem split_file_spec_witness :
    (split_file [str "a b", str "b c", str "d"] 2).length = 2
    ∧ (∀ j, j < 2 →
        (split_file [str "a b", str "b c", str "d"] 2).getD j []
          = ((rrChunkLines [str "a b", str "b c", str "d"] 2 j).map
              (fun l => l ++ ['\n'])).flatten)
    ∧ List.Perm
        ((List.range 2).flatMap
          (fun j => (withIdx 0 [str "a b", str "b c", str "d"]).filter
            (fun p => p.1 % 2 == j)))
        (withIdx 0 [str "a b", str "b c", str "d"])
    ∧ (∀ sorted : List (Nat × List Char),
        List.Perm
          ((List.range 2).flatMap
            (fun j => (withIdx 0 [str "a b", str "b c", str "d"]).filter
              (fun p => p.1 % 2 == j)))
          sorted →
        sorted.Pairwise (fun p q => p.1 < q.1) →
        sorted.map Prod.snd = [str "a b", str "b c", str "d"]) :=
  split_file_spec [str "a b", str "b c", str "d"] 2 (by decide)

/-- Decimal digit character (`'0'` is code 48). -/
def digitChar (d : Nat) : Char := Char.ofNat (48 + d)

/-- Accumulator loop of the decimal rendering performed by `format!("{}", n)`
on a `usize`. The first argument is structural fuel; any fuel above `n`
produces the digits of `n` (`natReprGo_irrel`), and `natRepr` supplies
`n + 1`. -/
def natReprGo : Nat → Nat → List Char → List Char
  | 0, _, acc => acc
  | fuel + 1, n, acc =>
    if n < 10 then digitChar n :: acc
    else natReprGo fuel (n / 10) (digitChar (n % 10) :: acc)

/-- Decimal rendering of a `usize` count. -/
def natRepr (n : Nat) : List Char := natReprGo (n + 1) n []

/-- One digit of `usize::from_str`. -/
def parseDigit? (c : Char) : Option Nat :=
  if '0' ≤ c ∧ c ≤ '9' then some (c.toNat - 48) else none

/-- Digit-folding loop of `usize::from_str`. -/
def digitsVal : List Char → Nat → Option Nat
  | [], acc => some acc
  | c :: cs, acc =>
    match parseDigit? c with
    | some d => digitsVal cs (acc * 10 + d)
    | none => none

/-- Model of `str::parse::<usize>`: an optional leading `+`, then one or more
decimal digits (64-bit overflow is not modelled; it is irrelevant to the
claims considered). -/
def parseNat? (cs : List Char) : Option Nat :=
  match cs with
  | [] => none
  | c :: rest =>
    if c = '+' then (if rest.isEmpty then none else digitsVal rest 0)
    else digitsVal (c :: rest) 0

theorem digitChar_props (d : Nat) (h : d < 10) :
    parseDigit? (digitChar d) = some d ∧ isWS (digitChar d) = false ∧ digitChar d ≠ '+' := by
  interval_cases d <;> exact ⟨by decide, by decide, by decide⟩

theorem natReprGo_irrel (n : Nat) :
    ∀ (f₁ f₂ : Nat) (acc : List Char), n < f₁ → n < f₂ →
      natReprGo f₁ n acc = natReprGo f₂ n acc := by
  induction n using Nat.strong_induction_on with
  | _ n ih =>
    intro f₁ f₂ acc h₁ h₂
    cases f₁ with
    | zero => omega
    | succ g₁ =>
      cases f₂ with
      | zero => omega
      | succ g₂ =>
        by_cases h : n < 10
        · rw [natReprGo, natReprGo, if_pos h, if_pos h]
        · rw [natReprGo, natReprGo, if_neg h, if_neg h]
          have hdiv : n / 10 < n := Nat.div_lt_self (by omega) (by omega)
          exact ih (n / 10) hdiv g₁ g₂ _ (by omega) (by omega)

theorem natReprGo_append (n : Nat) :
    ∀ (fuel : Nat) (acc : List Char), n < fuel →
      natReprGo fuel n acc = natReprGo fuel n [] ++ acc := by
  induction n using Nat.strong_induction_on with
  | _ n ih =>
    intro fuel acc hf
    cases fuel with
    | zero => omega
    | succ g =>
      by_cases h : n < 10
      · rw [natReprGo, natReprGo, if_pos h, if_pos h]
        rfl
      · rw [natReprGo, natReprGo, if_neg h, if_neg h]
        have hdiv : n / 10 < n := Nat.div_lt_self (by omega) (by omega)
        have hg : n / 10 < g := by omega
        rw [ih (n / 10) hdiv g _ hg, ih (n / 10) hdiv g (digitChar (n % 10) :: []) hg]
        simp

theorem natRepr_step (n : Nat) :
    natRepr n = if n < 10 then [digitChar n] else natRepr (n / 10) ++ [digitChar (n % 10)] := by
  by_cases h : n < 10
  · rw [natRepr, natReprGo, if_pos h, if_pos h]
  · have hdiv : n / 10 < n := Nat.div_lt_self (by omega) (by omega)
    rw [natRepr, natReprGo, if_neg h, if_neg h]
    rw [natReprGo_append (n / 10) n (digitChar (n % 10) :: []) (by omega)]
    have h1 : natReprGo n (n / 10) [] = natRepr (n / 10) := by
      rw [natRepr]
      exact natReprGo_irrel (n / 10) n (n / 10 + 1) [] (by omega) (by omega)
    rw [h1]

theorem natRepr_ne_nil (n : Nat) : natRepr n ≠ [] := by
  rw [natRepr_step]
  by_cases h : n < 10 <;> simp [h]

theorem natRepr_digits (n : Nat) : ∀ c ∈ natRepr n, ∃ d, d < 10 ∧ c = digitChar d := by
  induction n using Nat.strong_induction_on with
  | _ n ih =>
    intro c hc
    rw [natRepr_step] at hc
    by_cases h : n < 10
    · rw [if_pos h] at hc
      have : c = digitChar n := by simpa using hc
      exact ⟨n, h, this⟩
    · rw [if_neg h] at hc
      rcases List.mem_append.mp hc with h1 | h1
      · exact ih (n / 10) (Nat.div_lt_self (by omega) (by omega)) c h1
      · have : c = digitChar (n % 10) := by simpa using h1
        exact ⟨n % 10, Nat.mod_lt _ (by omega), this⟩

theorem natRepr_no_ws (n : Nat) : ∀ c ∈ natRepr n, isWS c = false := by
  intro c hc
  rcases natRepr_digits n c hc with ⟨d, hd, rfl⟩
  exact (digitChar_props d hd).2.1

theorem digitsVal_append (xs : List Char) :
    ∀ (ys : List Char) (k : Nat),
      digitsVal (xs ++ ys) k =
        match digitsVal xs k with
        | some v => digitsVal ys v
        | none => none := by
  induction xs with
  | nil => intro ys k; rfl
  | cons c cs ih =>
    intro ys k
    rw [List.cons_append]
    simp only [digitsVal]
    cases hp : parseDigit? c with
    | none => rfl
    | some d => exact ih ys (k * 10 + d)

theorem digitsVal_natRepr (n : Nat) :
    ∀ k, digitsVal (natRepr n) k = some (k * 10 ^ (natRepr n).length + n) := by
  induction n using Nat.strong_induction_on with
  | _ n ih =>
    intro k
    rw [natRepr_step]
    by_cases h : n < 10
    · rw [if_pos h]
      simp only [digitsVal, (digitChar_props n h).1]
      simp
    · rw [if_neg h]
      have hdiv : n / 10 < n := Nat.div_lt_self (by omega) (by omega)
      rw [digitsVal_append, ih _ hdiv k]
      simp only [digitsVal, (digitChar_props (n % 10) (Nat.mod_lt _ (by omega))).1]
      have hlen : (natRepr (n / 10) ++ [digitChar (n % 10)]).length
          = (natRepr (n / 10)).length + 1 := by simp
      rw [hlen]
      have hmod : n / 10 * 10 + n % 10 = n := by omega
      have hcalc : (k * 10 ^ (natRepr (n / 10)).length + n / 10) * 10 + n % 10
          = k * 10 ^ ((natRepr (n / 10)).length + 1) + n := by
        rw [pow_succ]
        calc (k * 10 ^ (natRepr (n / 10)).length + n / 10) * 10 + n % 10
            = k * (10 ^ (natRepr (n / 10)).length * 10) + (n / 10 * 10 + n % 10) := by ring
          _ = k * (10 ^ (natRepr (n / 10)).length * 10) + n := by rw [hmod]
      rw [hcalc]

/-- The decimal round trip: parsing a rendered count returns the count. -/
theorem parseNat?_natRepr (n : Nat) : parseNat? (natRepr n) = some n := by
  cases hr : natRepr n with
  | nil => exact absurd hr (natRepr_ne_nil n)
  | cons c rest =>
    have hc : c ∈ natRepr n := by
      rw [hr]
      exact List.mem_cons_self _ _
    rcases natRepr_digits n c hc with ⟨d, hd, rfl⟩
    rw [parseNat?]
    rw [if_neg (digitChar_props d hd).2.2]
    rw [← hr, digitsVal_natRepr n 0]
    simp

/-- Strip one trailing carriage return from a reversed line buffer, as
`BufRead::lines` does before a line feed. -/
def stripCR (acc : List Char) : List Char :=
  match acc with
  | [] => []
  | c :: rest => if c = '\r' then rest else c :: rest

/-- Accumulator loop of `reader.lines()`: `acc` is the current line reversed;
a line feed emits the line (with a preceding carriage return stripped), and a
final unterminated line is still emitted. -/
def splitLinesGo : List Char → List Char → List (List Char)
  | [], acc => if acc.isEmpty then [] else [acc.reverse]
  | c :: cs, acc =>
    if c = '\n' then (stripCR acc).reverse :: splitLinesGo cs []
    else splitLinesGo cs (c :: acc)

/-- Model of reading a file's content line by line (`reader.lines()`). -/
def splitLines (content : List Char) : List (List Char) := splitLinesGo content []

/-- The text of one record line before its terminator: `"<word> <count>"`
(`format!("{} {}\n", word, count)` in `write_map_result`). -/
def lineOf (p : Token × Nat) : List Char := p.1 ++ ' ' :: natRepr p.2

/-- Model of `write_map_result` (`src/main.rs` lines 102-108): `File::create`
truncates any previous file, then one line per map entry is written in the
map's iteration order. -/
def write_map_result (m : WCMap) : List Char :=
  (m.map (fun p => lineOf p ++ ['\n'])).flatten

/-- The parse of one line inside `read_map_result` (lines 157-164): split the
line on whitespace, require exactly two fields, parse the second as `usize`. -/
def parseLine (line : List Char) : Option (Token × Nat) :=
  match splitWS line with
  | [w, cf] =>
    match parseNat? cf with
    | some c => some (w, c)
    | none => none
  | _ => none

/-- Model of `read_map_result` (lines 151-167): every line that parses is
inserted (`word_counts.insert`, overwriting), every other line is skipped. -/
def read_map_result (content : List Char) : WCMap :=
  (splitLines content).foldl
    (fun m line =>
      match parseLine line with
      | some p => hmInsert m p.1 p.2
      | none => m) []

/-- The well-formed lines of a record file content, in file order. -/
def wellFormedPairs (content : List Char) : WCMap :=
  (splitLines content).filterMap parseLine

/-- The value of the last entry with the given key, if any. -/
def lastVal? : WCMap → Token → Option Nat
  | [], _ => none
  | p :: ps, w =>
    match lastVal? ps w with
    | some v => some v
    | none => if p.1 = w then some p.2 else none

theorem isEmpty_false_of_ne_nil {α : Type} {l : List α} (h : l ≠ []) : l.isEmpty = false := by
  cases l with
  | nil => exact absurd rfl h
  | cons a as => rfl

theorem ne_nl_of_isWS_false {c : Char} (h : isWS c = false) : c ≠ '\n' := by
  intro hc
  subst hc
  exact absurd h (by decide)

theorem ne_cr_of_isWS_false {c : Char} (h : isWS c = false) : c ≠ '\r' := by
  intro hc
  subst hc
  exact absurd h (by decide)

theorem stripCR_of_head_ne {acc : List Char} (h : acc.head? ≠ some '\r') :
    stripCR acc = acc := by
  cases acc with
  | nil => rfl
  | cons c rest =>
    have hc : ¬ c = '\r' := by
      intro hc
      exact h (by rw [hc]; rfl)
    simp [stripCR, hc]

theorem splitWSGo_prefix (w : List Char) :
    ∀ (rest acc : List Char), (∀ c ∈ w, isWS c = false) →
      splitWSGo (w ++ rest) acc = splitWSGo rest (w.reverse ++ acc) := by
  induction w with
  | nil => intro rest acc h; simp
  | cons c cs ih =>
    intro rest acc h
    have hc : isWS c = false := h c (by simp)
    rw [List.cons_append, splitWSGo]
    rw [hc]
    simp only [Bool.false_eq_true, if_false]
    rw [ih rest (c :: acc) (fun x hx => h x (by simp [hx]))]
    simp

theorem splitWS_two_tokens (w d : List Char)
    (hw1 : w ≠ []) (hw2 : ∀ c ∈ w, isWS c = false)
    (hd1 : d ≠ []) (hd2 : ∀ c ∈ d, isWS c = false) :
    splitWS (w ++ ' ' :: d) = [w, d] := by
  rw [splitWS, splitWSGo_prefix w (' ' :: d) [] hw2, List.append_nil]
  rw [splitWSGo]
  have hws : isWS ' ' = true := by decide
  rw [hws]
  have hrev : w.reverse ≠ [] := by
    simpa using hw1
  rw [isEmpty_false_of_ne_nil hrev]
  simp only [if_true, Bool.false_eq_true, if_false, List.reverse_reverse]
  have hd3 : splitWSGo d [] = [d] := by
    have := splitWSGo_prefix d [] [] hd2
    rw [List.append_nil, List.append_nil] at this
    rw [this, splitWSGo]
    have hdrev : d.reverse ≠ [] := by simpa using hd1
    rw [isEmpty_false_of_ne_nil hdrev]
    simp
  rw [hd3]

theorem splitLinesGo_prefix (l : List Char) :
    ∀ (rest acc : List Char), (∀ c ∈ l, c ≠ '\n') →
      splitLinesGo (l ++ rest) acc = splitLinesGo rest (l.reverse ++ acc) := by
  induction l with
  | nil => intro rest acc h; simp
  | cons c cs ih =>
    intro rest acc h
    have hc : c ≠ '\n' := h c (by simp)
    rw [List.cons_append, splitLinesGo]
    rw [if_neg hc]
    rw [ih rest (c :: acc) (fun x hx => h x (by simp [hx]))]
    simp

theorem splitLines_flatten (ls : List (List Char)) :
    (∀ l ∈ ls, (∀ c ∈ l, c ≠ '\n') ∧ l.reverse.head? ≠ some '\r') →
    splitLines ((ls.map (fun l => l ++ ['\n'])).flatten) = ls := by
  induction ls with
  | nil => intro h; rfl
  | cons l ls ih =>
    intro h
    have hl := h l (by simp)
    rw [List.map_cons, List.flatten_cons]
    have hshape : (l ++ ['\n']) ++ ((ls.map (fun l => l ++ ['\n'])).flatten)
        = l ++ ('\n' :: (ls.map (fun l => l ++ ['\n'])).flatten) := by
      rw [List.append_assoc]
      rfl
    rw [splitLines, hshape, splitLinesGo_prefix l _ [] hl.1, List.append_nil]
    rw [splitLinesGo]
    rw [if_pos rfl]
    rw [stripCR_of_head_ne hl.2, List.reverse_reverse]
    have := ih (fun x hx => h x (by simp [hx]))
    rw [splitLines] at this
    rw [this]

theorem head?_append_of_ne_nil {α : Type} (l₁ l₂ : List α) (h : l₁ ≠ []) :
    (l₁ ++ l₂).head? = l₁.head? := by
  cases l₁ with
  | nil => exact absurd rfl h
  | cons a as => rfl

theorem head?_reverse_mem {l : List Char} (h : l ≠ []) :
    ∃ c, l.reverse.head? = some c ∧ c ∈ l := by
  cases hr : l.reverse with
  | nil =>
    rw [List.reverse_eq_nil_iff] at hr
    exact absurd hr h
  | cons c cs =>
    refine ⟨c, rfl, ?_⟩
    have hmem : c ∈ l.reverse := by
      rw [hr]
      exact List.mem_cons_self _ _
    exact List.mem_reverse.mp hmem

theorem lineOf_no_nl (p : Token × Nat) (hwf : ∀ c ∈ p.1, isWS c = false) :
    ∀ c ∈ lineOf p, c ≠ '\n' := by
  intro c hc
  rw [lineOf] at hc
  rcases List.mem_append.mp hc with h1 | h1
  · exact ne_nl_of_isWS_false (hwf c h1)
  · rcases List.mem_cons.mp h1 with h2 | h2
    · subst h2
      decide
    · exact ne_nl_of_isWS_false (natRepr_no_ws p.2 c h2)

theorem lineOf_last_ne_cr (p : Token × Nat) :
    (lineOf p).reverse.head? ≠ some '\r' := by
  rw [lineOf]
  rw [List.reverse_append]
  have hrev : (' ' :: natRepr p.2).reverse = (natRepr p.2).reverse ++ [' '] := by
    simp
  rw [hrev, List.append_assoc]
  have hne : (natRepr p.2).reverse ≠ [] := by
    simpa using natRepr_ne_nil p.2
  rw [head?_append_of_ne_nil _ _ hne]
  rcases head?_reverse_mem (natRepr_ne_nil p.2) with ⟨c, hc1, hc2⟩
  rw [hc1]
  intro hcontra
  have : c = '\r' := by
    injection hcontra
  subst this
  exact ne_cr_of_isWS_false (natRepr_no_ws p.2 _ hc2) rfl

theorem parseLine_lineOf (p : Token × Nat)
    (h1 : p.1 ≠ []) (h2 : ∀ c ∈ p.1, isWS c = false) :
    parseLine (lineOf p) = some p := by
  rw [parseLine, lineOf]
  rw [splitWS_two_tokens p.1 (natRepr p.2) h1 h2 (natRepr_ne_nil p.2) (natRepr_no_ws p.2)]
  simp only [parseNat?_natRepr]

theorem alookup_hmInsert (m : WCMap) (k w : Token) (c : Nat) :
    alookup (hmInsert m k c) w = if w = k then some c else alookup m w := by
  induction m with
  | nil =>
    by_cases h : w = k
    · subst h
      simp [hmInsert, alookup]
    · simp [hmInsert, alookup, h, Ne.symm h]
  | cons p ps ih =>
    by_cases hp : p.1 = k
    · by_cases hw : w = k
      · subst hw
        subst hp
        simp [hmInsert, alookup]
      · have hw2 : ¬ p.1 = w := by
          rw [hp]
          exact Ne.symm hw
        simp [hmInsert, hp, alookup, hw2, hw, Ne.symm hw]
    · by_cases hw : w = p.1
      · have hw1 : p.1 = w := hw.symm
        have hk : ¬ w = k := by
          rw [hw]
          exact hp
        simp [hmInsert, hp, alookup, hw1, hk]
      · have hw2 : ¬ p.1 = w := fun hh => hw hh.symm
        simp [hmInsert, hp, alookup, hw2, ih]

theorem alookup_foldl_insert (pairs : WCMap) :
    ∀ (m : WCMap) (w : Token),
      alookup (pairs.foldl (fun m p => hmInsert m p.1 p.2) m) w =
        match lastVal? pairs w with
        | some v => some v
        | none => alookup m w := by
  induction pairs with
  | nil => intro m w; rfl
  | cons p ps ih =>
    intro m w
    rw [List.foldl_cons, ih]
    rw [lastVal?]
    cases hl : lastVal? ps w with
    | some v => rfl
    | none =>
      simp only
      rw [alookup_hmInsert]
      by_cases hw : w = p.1
      · rw [if_pos hw, if_pos hw.symm]
      · rw [if_neg hw, if_neg (fun hh => hw hh.symm)]

theorem foldl_readStep (lines : List (List Char)) :
    ∀ (m : WCMap),
      lines.foldl
          (fun m line =>
            match parseLine line with
            | some p => hmInsert m p.1 p.2
            | none => m) m
        = (lines.filterMap parseLine).foldl (fun m p => hmInsert m p.1 p.2) m := by
  induction lines with
  | nil => intro m; rfl
  | cons l ls ih =>
    intro m
    rw [List.foldl_cons, List.filterMap_cons]
    cases hp : parseLine l with
    | none => exact ih m
    | some p =>
      rw [List.foldl_cons]
      exact ih (hmInsert m p.1 p.2)

theorem read_map_result_as_filterMap (content : List Char) :
    read_map_result content
      = (wellFormedPairs content).foldl (fun m p => hmInsert m p.1 p.2) [] := by
  rw [read_map_result, wellFormedPairs]
  exact foldl_readStep (splitLines content) []

theorem lastVal?_eq_none_of_not_mem (pairs : WCMap) :
    ∀ w : Token, w ∉ pairs.map Prod.fst → lastVal? pairs w = none := by
  induction pairs with
  | nil => intro w h; rfl
  | cons p ps ih =>
    intro w h
    have h1 : w ∉ ps.map Prod.fst := fun hh => h (by simp [hh])
    have h2 : ¬ p.1 = w := by
      intro hh
      exact h (by simp [hh])
    rw [lastVal?, ih w h1]
    simp [h2]

theorem lastVal?_of_nodup (m : WCMap) (hn : (m.map Prod.fst).Nodup) :
    ∀ w, lastVal? m w = alookup m w := by
  induction m with
  | nil => intro w; rfl
  | cons p ps ih =>
    intro w
    rw [List.map_cons, List.nodup_cons] at hn
    have hhead : p.1 ∉ ps.map Prod.fst := hn.1
    have htail : (ps.map Prod.fst).Nodup := hn.2
    rw [lastVal?, alookup]
    by_cases hw : p.1 = w
    · subst hw
      rw [lastVal?_eq_none_of_not_mem ps p.1 hhead]
      simp
    · rw [ih htail w]
      cases ha : alookup ps w with
      | some v => simp [ha, hw]
      | none => simp [ha, hw]

theorem alookup_of_mem_nodup (m : WCMap) (hn : (m.map Prod.fst).Nodup) :
    ∀ p ∈ m, alookup m p.1 = some p.2 := by
  induction m with
  | nil => intro p hp; simp at hp
  | cons q ps ih =>
    intro p hp
    rw [List.map_cons, List.nodup_cons] at hn
    have hhead : q.1 ∉ ps.map Prod.fst := hn.1
    have htail : (ps.map Prod.fst).Nodup := hn.2
    rcases List.mem_cons.mp hp with h | h
    · subst h
      simp [alookup]
    · have hne : ¬ q.1 = p.1 := by
        intro hh
        exact hhead (hh ▸ List.mem_map.mpr ⟨p, h, rfl⟩)
      rw [alookup, if_neg hne]
      exact ih htail p h

theorem filterMap_id_of_some {α : Type} (f : α → Option α) :
    ∀ (l : List α), (∀ a ∈ l, f a = some a) → l.filterMap f = l := by
  intro l
  induction l with
  | nil => intro h; rfl
  | cons a as ih =>
    intro h
    rw [List.filterMap_cons, h a (by simp)]
    rw [ih (fun x hx => h x (by simp [hx]))]

/-- C6 (amended): reading a record file never fails; a line that does not
split into exactly two whitespace-separated fields, or whose second field is
not a parseable non-negative integer, is skipped and contributes nothing; the
result is the insert-fold of exactly the well-formed lines in file order, so
each token on a well-formed line maps to the count of its last well-formed
line; when the well-formed lines carry pairwise-distinct tokens, every
well-formed line's count is in the result. -/
theorem read_map_result_spec (content : List Char) (w : Token) :
    read_map_result content
        = (wellFormedPairs content).foldl (fun m p => hmInsert m p.1 p.2) []
    ∧ alookup (read_map_result content) w = lastVal? (wellFormedPairs content) w
    ∧ (((wellFormedPairs content).map Prod.fst).Nodup →
        ∀ p ∈ wellFormedPairs content,
          alookup (read_map_result content) p.1 = some p.2) := by
  refine ⟨read_map_result_as_filterMap content, ?_, ?_⟩
  · rw [read_map_result_as_filterMap, alookup_foldl_insert]
    cases lastVal? (wellFormedPairs content) w <;> rfl
  · intro hnodup p hp
    rw [read_map_result_as_filterMap, alookup_foldl_insert,
      lastVal?_of_nodup _ hnodup, alookup_of_mem_nodup _ hnodup p hp]

/-- Witness for C6: in a record with one malformed line, the counts of the
well-formed lines survive. -/
theorem read_map_result_spec_witness :
    alookup (read_map_result (str "a 1\nword notanumber\nb 2\n")) (str "a") = some 1 :=
  (read_map_result_spec (str "a 1\nword notanumber\nb 2\n") (str "a")).2.2
    (by decide) (str "a", 1) (by decide)

/-- Counterexample to C6 as stated: both lines "a 1" and "a 2" are
well-formed, but the returned mapping does not contain the count of the first
one — the later line's insert overwrites it. -/
theorem read_map_result_counterexample :
    parseLine (str "a 1") = some (str "a", 1)
    ∧ parseLine (str "a 2") = some (str "a", 2)
    ∧ wellFormedPairs (str "a 1\na 2\n") = [(str "a", 1), (str "a", 2)]
    ∧ alookup (read_map_result (str "a 1\na 2\n")) (str "a") = some 2
    ∧ ¬ alookup (read_map_result (str "a 1\na 2\n")) (str "a") = some 1 := by
  refine ⟨?_, ?_, ?_, ?_, ?_⟩ <;> decide

/-- C5 (amended): writing a map whose tokens are non-empty and contain no
whitespace, and reading the record back, restores the mapping exactly
(equality of lookups, i.e. ignoring order). -/
theorem write_read_roundtrip (m : WCMap) (w : Token)
    (hkeys : (m.map Prod.fst).Nodup)
    (hwf : ∀ p ∈ m, p.1 ≠ [] ∧ ∀ c ∈ p.1, isWS c = false) :
    alookup (read_map_result (write_map_result m)) w = alookup m w := by
  have hlines : splitLines (write_map_result m) = m.map lineOf := by
    rw [write_map_result]
    have hmm : m.map (fun p => lineOf p ++ ['\n'])
        = (m.map lineOf).map (fun l => l ++ ['\n']) := by
      rw [List.map_map]
      rfl
    rw [hmm]
    apply splitLines_flatten
    intro l hl
    rcases List.mem_map.mp hl with ⟨p, hp, rfl⟩
    exact ⟨lineOf_no_nl p (hwf p hp).2, lineOf_last_ne_cr p⟩
  have hwfp : wellFormedPairs (write_map_result m) = m := by
    rw [wellFormedPairs, hlines, List.filterMap_map]
    exact filterMap_id_of_some _ m
      (fun p hp => parseLine_lineOf p (hwf p hp).1 (hwf p hp).2)
  rw [read_map_result_as_filterMap, hwfp, alookup_foldl_insert,
    lastVal?_of_nodup m hkeys w]
  cases alookup m w <;> rfl

/-- Witness for C5 at a concrete two-entry map. -/
theorem write_read_roundtrip_witness :
    alookup (read_map_result (write_map_result [(str "apple", 2), (str "b", 1)]))
        (str "apple")
      = alookup [(str "apple", 2), (str "b", 1)] (str "apple") :=
  write_read_roundtrip [(str "apple", 2), (str "b", 1)] (str "apple")
    (by decide) (by decide)

/-- Counterexample to C5 as stated: the empty token contains no whitespace,
yet its record line " 1" splits into one field and is skipped on read, so the
round trip loses the entry. -/
theorem write_read_roundtrip_counterexample :
    (∀ c ∈ ([] : Token), isWS c = false)
    ∧ write_map_result [(([] : Token), 1)] = str " 1\n"
    ∧ read_map_result (write_map_result [(([] : Token), 1)]) = []
    ∧ ¬ alookup (read_map_result (write_map_result [(([] : Token), 1)])) [] = some 1 := by
  refine ⟨?_, ?_, ?_, ?_⟩ <;> decide

/-- The merge loop of `reduce_phase` (`src/main.rs` lines 130-133): one
record's entries are folded into the shared aggregate while the lock is held,
via `*final_result.entry(word).or_insert(0) += count`. -/
def mergeRecord (agg : WCMap) (r : WCMap) : WCMap :=
  r.foldl (fun a p => hmInsertAdd a p.1 p.2) agg

/-- Model of `reduce_phase` (lines 110-149) applied to the already-read
records, listed in the order in which the workers acquire the aggregate lock:
each record is merged atomically under the mutex, so one concurrent execution
is exactly one permutation of the record list folded from the empty map. -/
def reduce_phase (records : List WCMap) : WCMap :=
  records.foldl mergeRecord []

/-- Total count contributed for one token by a list of records (absent means
a contribution of zero). -/
def sumCounts (records : List WCMap) (w : Token) : Nat :=
  (records.map (fun r => (alookup r w).getD 0)).sum

/-- Whether any record mentions the token. -/
def hasToken (records : List WCMap) (w : Token) : Bool :=
  records.any (fun r => (alookup r w).isSome)

theorem alookup_eq_none_of_not_mem (m : WCMap) :
    ∀ w : Token, w ∉ m.map Prod.fst → alookup m w = none := by
  induction m with
  | nil => intro w h; rfl
  | cons p ps ih =>
    intro w h
    have h1 : w ∉ ps.map Prod.fst := fun hh => h (by simp [hh])
    have h2 : ¬ p.1 = w := by
      intro hh
      exact h (by simp [hh])
    rw [alookup, if_neg h2]
    exact ih w h1

theorem alookup_mergeRecord (r : WCMap) (hr : (r.map Prod.fst).Nodup) :
    ∀ (agg : WCMap) (w : Token),
      alookup (mergeRecord agg r) w =
        if (alookup agg w).isSome = true ∨ (alookup r w).isSome = true then
          some ((alookup agg w).getD 0 + (alookup r w).getD 0)
        else none := by
  induction r with
  | nil =>
    intro agg w
    cases h : alookup agg w <;> simp [mergeRecord, h, alookup]
  | cons p ps ih =>
    intro agg w
    rw [List.map_cons, List.nodup_cons] at hr
    have hstep : mergeRecord agg (p :: ps) = mergeRecord (hmInsertAdd agg p.1 p.2) ps := rfl
    rw [hstep, ih hr.2, alookup_hmInsertAdd]
    by_cases hw : w = p.1
    · have hps : alookup ps w = none := by
        apply alookup_eq_none_of_not_mem
        rw [hw]
        exact hr.1
      have hcons : alookup (p :: ps) w = some p.2 := by
        rw [alookup, if_pos hw.symm]
      rw [hcons, if_pos hw, hps]
      cases h : alookup agg w <;> simp [h]
    · have hcons : alookup (p :: ps) w = alookup ps w := by
        rw [alookup, if_neg (fun hh => hw hh.symm)]
      rw [hcons, if_neg hw]

theorem alookup_reduce_go (records : List WCMap)
    (hkeys : ∀ r ∈ records, (r.map Prod.fst).Nodup) :
    ∀ (agg : WCMap) (w : Token),
      alookup (records.foldl mergeRecord agg) w =
        if (alookup agg w).isSome = true ∨ hasToken records w = true then
          some ((alookup agg w).getD 0 + sumCounts records w)
        else none := by
  induction records with
  | nil =>
    intro agg w
    cases h : alookup agg w <;> simp [hasToken, sumCounts, h]
  | cons r rs ih =>
    intro agg w
    have hr : (r.map Prod.fst).Nodup := hkeys r (by simp)
    have hrs : ∀ x ∈ rs, (x.map Prod.fst).Nodup := fun x hx => hkeys x (by simp [hx])
    rw [List.foldl_cons, ih hrs, alookup_mergeRecord r hr]
    simp only [hasToken, List.any_cons, sumCounts, List.map_cons, List.sum_cons]
    cases hagg : alookup agg w <;> cases hrw : alookup r w <;>
      cases hany : rs.any (fun x => (alookup x w).isSome) <;>
        simp [hagg, hrw, hany, sumCounts, hasToken, Nat.add_assoc]

theorem any_of_perm {α : Type} {l₁ l₂ : List α} (h : List.Perm l₁ l₂) (f : α → Bool) :
    l₁.any f = l₂.any f := by
  induction h with
  | nil => rfl
  | cons a h ih => simp only [List.any_cons, ih]
  | swap a b l =>
    simp only [List.any_cons]
    rw [← Bool.or_assoc, Bool.or_comm (f b) (f a), Bool.or_assoc]
  | trans h1 h2 ih1 ih2 => rw [ih1, ih2]

theorem hasToken_of_perm {l₁ l₂ : List WCMap} (h : List.Perm l₁ l₂) (w : Token) :
    hasToken l₁ w = hasToken l₂ w :=
  any_of_perm h _

theorem sumCounts_of_perm {l₁ l₂ : List WCMap} (h : List.Perm l₁ l₂) (w : Token) :
    sumCounts l₁ w = sumCounts l₂ w :=
  (h.map (fun r => (alookup r w).getD 0)).sum_eq

theorem nat_sum_pos_iff (l : List Nat) : 0 < l.sum ↔ ∃ x ∈ l, 0 < x := by
  induction l with
  | nil => simp
  | cons a as ih =>
    rw [List.sum_cons]
    constructor
    · intro h
      by_cases ha : 0 < a
      · exact ⟨a, by simp, ha⟩
      · have : 0 < as.sum := by omega
        rcases ih.mp this with ⟨x, hx, hpos⟩
        exact ⟨x, by simp [hx], hpos⟩
    · intro h
      rcases h with ⟨x, hx, hpos⟩
      rcases List.mem_cons.mp hx with h1 | h1
      · omega
      · have : 0 < as.sum := ih.mpr ⟨x, h1, hpos⟩
        omega

theorem getD_alookup_countTokens (ts : List Token) (w : Token) :
    (alookup (countTokens ts) w).getD 0 = ts.count w := by
  rw [alookup_countTokens]
  by_cases h : 0 < ts.count w
  · rw [if_pos h]
    rfl
  · rw [if_neg h]
    have hz : ts.count w = 0 := by omega
    simp [hz]

theorem isSome_alookup_countTokens (ts : List Token) (w : Token) :
    (alookup (countTokens ts) w).isSome = true ↔ 0 < ts.count w := by
  rw [alookup_countTokens]
  by_cases h : 0 < ts.count w
  · simp [h]
  · simp [h]

/-- C1: merging any finite collection of intermediate records (mappings, i.e.
duplicate-free key lists) in any order gives the aggregate that maps each
token to the sum of its counts across the records (absent when no record
mentions it); the result is therefore independent of the processing order,
and when the records are the counts of token multisets it coincides with
directly counting the concatenated multiset. -/
theorem reduce_phase_spec (records order : List WCMap)
    (hperm : List.Perm order records)
    (hkeys : ∀ r ∈ records, (r.map Prod.fst).Nodup) (w : Token) :
    alookup (reduce_phase order) w
        = (if hasToken records w = true then some (sumCounts records w) else none)
    ∧ alookup (reduce_phase order) w = alookup (reduce_phase records) w
    ∧ (∀ tls : List (List Token), records = tls.map countTokens →
        alookup (reduce_phase order) w = alookup (countTokens tls.flatten) w) := by
  have hkeys2 : ∀ r ∈ order, (r.map Prod.fst).Nodup :=
    fun r hr => hkeys r (hperm.mem_iff.mp hr)
  have hbase : ∀ (l : List WCMap), (∀ r ∈ l, (r.map Prod.fst).Nodup) →
      alookup (reduce_phase l) w
        = (if hasToken l w = true then some (sumCounts l w) else none) := by
    intro l hl
    rw [reduce_phase, alookup_reduce_go l hl]
    simp [alookup]
  have h1 : alookup (reduce_phase order) w
      = (if hasToken records w = true then some (sumCounts records w) else none) := by
    rw [hbase order hkeys2, hasToken_of_perm hperm, sumCounts_of_perm hperm]
  refine ⟨h1, ?_, ?_⟩
  · rw [h1, hbase records hkeys]
  · intro tls htls
    subst htls
    rw [h1, alookup_countTokens]
    have hsum : sumCounts (tls.map countTokens) w = tls.flatten.count w := by
      rw [sumCounts, List.map_map, List.count_flatten]
      congr 1
      apply List.map_congr_left
      intro ts _
      exact getD_alookup_countTokens ts w
    have htok : hasToken (tls.map countTokens) w = true ↔ 0 < tls.flatten.count w := by
      rw [hasToken, List.any_eq_true]
      constructor
      · intro h
        rcases h with ⟨r, hr, hsome⟩
        rcases List.mem_map.mp hr with ⟨ts, hts, rfl⟩
        have hpos := (isSome_alookup_countTokens ts w).mp hsome
        rw [List.count_flatten]
        exact (nat_sum_pos_iff _).mpr ⟨ts.count w, List.mem_map.mpr ⟨ts, hts, rfl⟩, hpos⟩
      · intro h
        rw [List.count_flatten] at h
        rcases (nat_sum_pos_iff _).mp h with ⟨x, hx, hpos⟩
        rcases List.mem_map.mp hx with ⟨ts, hts, rfl⟩
        exact ⟨countTokens ts, List.mem_map.mpr ⟨ts, hts, rfl⟩,
          (isSome_alookup_countTokens ts w).mpr hpos⟩
    by_cases hcase : hasToken (tls.map countTokens) w = true
    · rw [if_pos hcase, if_pos (htok.mp hcase), hsum]
    · rw [if_neg hcase]
      have : ¬ 0 < tls.flatten.count w := fun hh => hcase (htok.mpr hh)
      rw [if_neg this]

/-- Witness for C1: two records merged in swapped order still sum to the
direct count of the combined multiset. -/
theorem reduce_phase_spec_witness :
    alookup (reduce_phase [[(str "a", 2), (str "b", 1)], [(str "a", 1)]]) (str "a")
        = (if hasToken [[(str "a", 1)], [(str "a", 2), (str "b", 1)]] (str "a") = true
            then some (sumCounts [[(str "a", 1)], [(str "a", 2), (str "b", 1)]] (str "a"))
            else none)
    ∧ alookup (reduce_phase [[(str "a", 2), (str "b", 1)], [(str "a", 1)]]) (str "a")
        = alookup (reduce_phase [[(str "a", 1)], [(str "a", 2), (str "b", 1)]]) (str "a")
    ∧ (∀ tls : List (List Token),
        [[(str "a", 1)], [(str "a", 2), (str "b", 1)]] = tls.map countTokens →
        alookup (reduce_phase [[(str "a", 2), (str "b", 1)], [(str "a", 1)]]) (str "a")
          = alookup (countTokens tls.flatten) (str "a")) :=
  reduce_phase_spec [[(str "a", 1)], [(str "a", 2), (str "b", 1)]]
    [[(str "a", 2), (str "b", 1)], [(str "a", 1)]] (by decide) (by decide) (str "a")

/-- Slot-derived record name `format!("map_{}.txt", worker_id)`
(`src/main.rs` line 73). -/
def workerName (wid : Nat) : List Char := str "map_" ++ natRepr wid ++ str ".txt"

/-- A possible map-phase execution with `M` worker slots over `numChunks`
chunks: the shared queue is popped exactly once per chunk, and `sched`
records which worker slot performed each pop. Any assignment whose slots are
all below `M` corresponds to a possible interleaving; with `M = 1` a single
worker necessarily takes every pop. -/
def validSched (M numChunks : Nat) (sched : List Nat) : Prop :=
  sched.length = numChunks ∧ ∀ wid ∈ sched, wid < M

/-- The name list returned by `map_phase` (lines 73-75, 90): every processed
chunk pushes the processing worker's slot name onto `results`, so the
returned vector holds one name per chunk. The model lists them in pop order;
a concurrent run returns some permutation, which changes none of the stated
properties (length, membership, number of distinct names). -/
def mapPhaseNames (sched : List Nat) : List (List Char) :=
  sched.map workerName

/-- Counterexample to C2 as stated: with one worker and two chunks (the only
possible schedule), the returned list repeats "map_0.txt" — `map_phase`
pushes one name per processed chunk, it does not collapse duplicates. -/
theorem map_phase_names_counterexample :
    validSched 1 2 [0, 0]
    ∧ mapPhaseNames [0, 0] = [str "map_0.txt", str "map_0.txt"]
    ∧ ¬ (mapPhaseNames [0, 0]).Nodup :=
  ⟨⟨rfl, by decide⟩, by decide, by decide⟩

/-- C2 (amended): the map phase returns one slot name per processed chunk
(so `numChunks` names, with duplicates whenever a worker processes several
chunks); every name is the slot name of a worker below `M`, and the number of
distinct names is at most `M`. -/
theorem map_phase_names_spec (M numChunks : Nat) (sched : List Nat)
    (h : validSched M numChunks sched) :
    (mapPhaseNames sched).length = numChunks
    ∧ (∀ nm ∈ mapPhaseNames sched, ∃ wid, wid < M ∧ nm = workerName wid)
    ∧ (mapPhaseNames sched).toFinset.card ≤ M := by
  obtain ⟨hlen, hlt⟩ := h
  refine ⟨by simp [mapPhaseNames, hlen], ?_, ?_⟩
  · intro nm hnm
    rcases List.mem_map.mp hnm with ⟨wid, hw, rfl⟩
    exact ⟨wid, hlt wid hw, rfl⟩
  · have hsub : (mapPhaseNames sched).toFinset ⊆ ((List.range M).map workerName).toFinset := by
      intro nm hnm
      rw [List.mem_toFinset] at hnm
      rw [List.mem_toFinset]
      rcases List.mem_map.mp hnm with ⟨wid, hw, rfl⟩
      exact List.mem_map.mpr ⟨wid, List.mem_range.mpr (hlt wid hw), rfl⟩
    calc (mapPhaseNames sched).toFinset.card
        ≤ ((List.range M).map workerName).toFinset.card := Finset.card_le_card hsub
      _ ≤ ((List.range M).map workerName).length := List.toFinset_card_le _
      _ = M := by simp

/-- Witness for C2 (amended) at one worker and two chunks. -/
theorem map_phase_names_spec_witness :
    (mapPhaseNames [0, 0]).length = 2
    ∧ (∀ nm ∈ mapPhaseNames [0, 0], ∃ wid, wid < 1 ∧ nm = workerName wid)
    ∧ (mapPhaseNames [0, 0]).toFinset.card ≤ 1 :=
  map_phase_names_spec 1 2 [0, 0] ⟨rfl, by decide⟩

/-- Model of `write_final_result` (lines 169-181): the file is opened with
`write(true).create(true)` but WITHOUT `truncate(true)`, so the rendered
lines overwrite the prior bytes in place and any prior content beyond the
rendered length survives. `old = none` models an absent file, `some c` a
pre-existing file with content `c`. Contrast `write_map_result`, which uses
the truncating `File::create`. -/
def write_final_result (old : Option (List Char)) (m : WCMap) : List Char :=
  match old with
  | none => (m.map (fun p => lineOf p ++ ['\n'])).flatten
  | some oldC =>
      (m.map (fun p => lineOf p ++ ['\n'])).flatten
        ++ oldC.drop ((m.map (fun p => lineOf p ++ ['\n'])).flatten).length

/-- C7 evaluated at the failing input: with a longer pre-existing file, the
final artifact keeps a stale tail of the previous content after the newly
written lines; only on a fresh file does it contain exactly the new lines. -/
theorem write_final_result_stale :
    write_final_result (some (str "stale1 111\nstale2 222\n")) [(str "a", 1)]
      = str "a 1\ne1 111\nstale2 222\n"
    ∧ write_final_result none [(str "a", 1)] = str "a 1\n"
    ∧ write_final_result (some (str "stale1 111\nstale2 222\n")) [(str "a", 1)]
      ≠ str "a 1\n" := by
  refine ⟨?_, ?_, ?_⟩ <;> decide

/-- Stable insertion for descending count order: the inserted entry goes
after every earlier entry whose count is strictly greater, and before the
first entry whose count is less than or equal — entries inserted earlier
(i.e. earlier in the original list) therefore stay before later equal-count
entries. -/
def insertByCount (p : Token × Nat) : WCMap → WCMap
  | [] => [p]
  | q :: qs => if p.2 ≥ q.2 then p :: q :: qs else q :: insertByCount p qs

/-- Stable sort by descending count. `counts.sort_by_key(Reverse(count))`
(line 185) is a stable sort, and a stable sort's output is uniquely
determined by being a permutation sorted by the key that preserves the
original relative order inside every equal-key class — the three properties
proved in `print_top_words_spec` — so this insertion sort is that output. -/
def sortByCountDesc : WCMap → WCMap
  | [] => []
  | p :: ps => insertByCount p (sortByCountDesc ps)

/-- Header `"Top {} words:"` (line 187). -/
def headerLine (n : Nat) : List Char := str "Top " ++ natRepr n ++ str " words:"

/-- Report line `"{}: {}"` (line 189). -/
def fmtTopEntry (p : Token × Nat) : List Char := p.1 ++ str ": " ++ natRepr p.2

/-- Model of `print_top_words` (lines 183-191): collect the map's entries in
iteration order, stably sort by descending count, then print the header
followed by the first `n` entries. The console output is the line list. -/
def print_top_words (m : WCMap) (n : Nat) : List (List Char) :=
  headerLine n :: ((sortByCountDesc m).take n).map fmtTopEntry

theorem insertByCount_perm (p : Token × Nat) :
    ∀ l : WCMap, List.Perm (insertByCount p l) (p :: l) := by
  intro l
  induction l with
  | nil => exact List.Perm.refl _
  | cons q qs ih =>
    rw [insertByCount]
    by_cases h : p.2 ≥ q.2
    · rw [if_pos h]
    · rw [if_neg h]
      exact (ih.cons q).trans (List.Perm.swap p q qs)

theorem sortByCountDesc_perm : ∀ m : WCMap, List.Perm (sortByCountDesc m) m := by
  intro m
  induction m with
  | nil => exact List.Perm.refl _
  | cons p ps ih =>
    rw [sortByCountDesc]
    exact (insertByCount_perm p _).trans (ih.cons p)

theorem insertByCount_sorted (p : Token × Nat) :
    ∀ l : WCMap, l.Pairwise (fun a b => b.2 ≤ a.2) →
      (insertByCount p l).Pairwise (fun a b => b.2 ≤ a.2) := by
  intro l
  induction l with
  | nil => intro h; simp [insertByCount]
  | cons q qs ih =>
    intro h
    rcases List.pairwise_cons.mp h with ⟨hq, hqs⟩
    rw [insertByCount]
    by_cases hc : p.2 ≥ q.2
    · rw [if_pos hc]
      refine List.Pairwise.cons ?_ h
      intro r hr
      rcases List.mem_cons.mp hr with h1 | h1
      · subst h1
        omega
      · have := hq r h1
        omega
    · rw [if_neg hc]
      refine List.Pairwise.cons ?_ (ih hqs)
      intro r hr
      have hr2 : r ∈ p :: qs := (insertByCount_perm p qs).mem_iff.mp hr
      rcases List.mem_cons.mp hr2 with h1 | h1
      · subst h1
        omega
      · exact hq r h1

theorem sortByCountDesc_sorted :
    ∀ m : WCMap, (sortByCountDesc m).Pairwise (fun a b => b.2 ≤ a.2) := by
  intro m
  induction m with
  | nil => simp [sortByCountDesc]
  | cons p ps ih =>
    rw [sortByCountDesc]
    exact insertByCount_sorted p _ ih

theorem insertByCount_filter (p : Token × Nat) (c : Nat) :
    ∀ l : WCMap,
      (insertByCount p l).filter (fun q => q.2 == c)
        = if p.2 = c then p :: l.filter (fun q => q.2 == c)
          else l.filter (fun q => q.2 == c) := by
  intro l
  induction l with
  | nil =>
    by_cases h : p.2 = c
    · have hp : (p.2 == c) = true := by simp [h]
      simp [insertByCount, List.filter, h, hp]
    · have hp : (p.2 == c) = false := by simp [h]
      simp [insertByCount, List.filter, h, hp]
  | cons q qs ih =>
    rw [insertByCount]
    by_cases hc : p.2 ≥ q.2
    · rw [if_pos hc]
      by_cases h : p.2 = c
      · have hp : (p.2 == c) = true := by simp [h]
        rw [if_pos h, List.filter_cons, hp]
        simp
      · have hp : (p.2 == c) = false := by simp [h]
        rw [if_neg h, List.filter_cons, hp]
        simp
    · rw [if_neg hc]
      by_cases h : p.2 = c
      · have hq : (q.2 == c) = false := by
          have hne : ¬ q.2 = c := by omega
          simp [hne]
        rw [if_pos h, List.filter_cons, hq]
        simp only [Bool.false_eq_true, if_false]
        rw [ih, if_pos h, List.filter_cons, hq]
        simp only [Bool.false_eq_true, if_false]
      · rw [if_neg h, List.filter_cons, List.filter_cons, ih, if_neg h]

theorem sortByCountDesc_filter (c : Nat) :
    ∀ m : WCMap,
      (sortByCountDesc m).filter (fun q => q.2 == c)
        = m.filter (fun q => q.2 == c) := by
  intro m
  induction m with
  | nil => rfl
  | cons p ps ih =>
    rw [sortByCountDesc, insertByCount_filter, List.filter_cons]
    by_cases h : p.2 = c
    · rw [if_pos h, ih]
      have : (p.2 == c) = true := by simp [h]
      rw [this]
      simp
    · rw [if_neg h, ih]
      have : (p.2 == c) = false := by simp [h]
      rw [this]
      simp

/-- C8 (amended): the report is the "Top N words:" header followed by the
first `min N |map|` entries of the stable descending-count sort, each printed
as "token: count"; ties keep the map's (unspecified) iteration order — the
sort is a permutation, sorted by descending count, and preserves the original
order inside every equal-count class. No lexicographic tie-break exists. -/
theorem print_top_words_spec (m : WCMap) (n : Nat) :
    print_top_words m n = headerLine n :: ((sortByCountDesc m).take n).map fmtTopEntry
    ∧ (print_top_words m n).length = 1 + min n m.length
    ∧ List.Perm (sortByCountDesc m) m
    ∧ (sortByCountDesc m).Pairwise (fun a b => b.2 ≤ a.2)
    ∧ (∀ c, (sortByCountDesc m).filter (fun q => q.2 == c)
        = m.filter (fun q => q.2 == c)) := by
  refine ⟨rfl, ?_, sortByCountDesc_perm m, sortByCountDesc_sorted m,
    fun c => sortByCountDesc_filter c m⟩
  rw [print_top_words]
  simp [List.length_take, (sortByCountDesc_perm m).length_eq]
  omega

/-- Counterexample to C8 as stated: with iteration order `b` before `a`, two
equal counts are reported in iteration order, not ascending lexicographic
order; and a map smaller than `N` yields fewer than `N` report lines. -/
theorem print_top_words_counterexample :
    print_top_words [(str "b", 1), (str "a", 1)] 2
        = [str "Top 2 words:", str "b: 1", str "a: 1"]
    ∧ print_top_words [(str "b", 1), (str "a", 1)] 2
        ≠ [str "Top 2 words:", str "a: 1", str "b: 1"]
    ∧ (print_top_words [(str "a", 1)] 3).length = 2
    ∧ (print_top_words [(str "a", 1)] 3).length ≠ 1 + 3 := by
  refine ⟨?_, ?_, ?_, ?_⟩ <;> decide

/-- The intermediate store: file name to file content, in creation order. -/
abbrev Store := List (Token × List Char)

/-- Deleting a file removes its directory entry. -/
def eraseName (store : Store) (nm : Token) : Store :=
  store.filter (fun p => !(p.1 == nm))

/-- Model of `tokio::fs::remove_file`: fails iff no such file exists. -/
def remove_file (store : Store) (nm : Token) : Except Unit Store :=
  if (alookup store nm).isSome then Except.ok (eraseName store nm) else Except.error ()

/-- Model of `cleanup_intermediate_files` (lines 193-199): each name in the
given list is deleted in turn; a failed deletion is logged (`eprintln`,
outside the model) and the loop continues with the store unchanged; the
function body then returns `Ok(())` — structurally it can never return an
error, which the model mirrors by wrapping the error-swallowing fold. -/
def cleanup_intermediate_files (store : Store) (names : List Token) : Except Unit Store :=
  Except.ok (names.foldl
    (fun s nm =>
      match remove_file s nm with
      | Except.ok s2 => s2
      | Except.error _ => s) store)

/-- Erasing every listed name, the intended net effect of cleanup. -/
def eraseAll (store : Store) (names : List Token) : Store :=
  names.foldl eraseName store

theorem alookup_eraseName (store : Store) (x w : Token) :
    alookup (eraseName store x) w = if w = x then none else alookup store w := by
  induction store with
  | nil =>
    by_cases h : w = x <;> simp [eraseName, alookup, h]
  | cons p ps ih =>
    rw [eraseName, List.filter_cons]
    by_cases hp : p.1 = x
    · have hb : (!(p.1 == x)) = false := by simp [hp]
      rw [hb]
      simp only [Bool.false_eq_true, if_false]
      rw [eraseName] at ih
      rw [ih]
      by_cases hw : w = x
      · rw [if_pos hw, if_pos hw]
      · rw [if_neg hw, if_neg hw, alookup]
        have : ¬ p.1 = w := by
          rw [hp]
          exact fun hh => hw hh.symm
        rw [if_neg this]
    · have hb : (!(p.1 == x)) = true := by simp [hp]
      rw [hb]
      simp only [if_true]
      rw [alookup, alookup]
      by_cases hpw : p.1 = w
      · rw [if_pos hpw, if_pos hpw]
        have hw : ¬ w = x := by
          rw [← hpw]
          exact hp
        rw [if_neg hw]
      · rw [if_neg hpw, if_neg hpw]
        rw [eraseName] at ih
        exact ih

theorem eraseName_of_absent (store : Store) (nm : Token)
    (h : alookup store nm = none) : eraseName store nm = store := by
  induction store with
  | nil => rfl
  | cons p ps ih =>
    rw [alookup] at h
    by_cases hp : p.1 = nm
    · rw [if_pos hp] at h
      exact absurd h (by simp)
    · rw [if_neg hp] at h
      rw [eraseName, List.filter_cons]
      have hb : (!(p.1 == nm)) = true := by simp [hp]
      rw [hb]
      simp only [if_true]
      rw [eraseName] at ih
      rw [ih h]

theorem cleanup_fold_eq (names : List Token) :
    ∀ store : Store,
      names.foldl
          (fun s nm =>
            match remove_file s nm with
            | Except.ok s2 => s2
            | Except.error _ => s) store
        = eraseAll store names := by
  induction names with
  | nil => intro store; rfl
  | cons nm ns ih =>
    intro store
    rw [List.foldl_cons]
    have hstep :
        (match remove_file store nm with
          | Except.ok s2 => s2
          | Except.error _ => store) = eraseName store nm := by
      rw [remove_file]
      cases h : alookup store nm with
      | some v => simp [h]
      | none =>
        simp [h]
        exact (eraseName_of_absent store nm h).symm
    rw [hstep, ih]
    rfl

theorem alookup_eraseAll (names : List Token) :
    ∀ (store : Store) (nm : Token),
      alookup (eraseAll store names) nm
        = if nm ∈ names then none else alookup store nm := by
  induction names with
  | nil =>
    intro store nm
    simp [eraseAll]
  | cons x xs ih =>
    intro store nm
    have hstep : eraseAll store (x :: xs) = eraseAll (eraseName store x) xs := rfl
    rw [hstep, ih, alookup_eraseName]
    by_cases h1 : nm ∈ xs
    · rw [if_pos h1, if_pos (by simp [h1])]
    · rw [if_neg h1]
      by_cases h2 : nm = x
      · rw [if_pos h2, if_pos (by simp [h2])]
      · rw [if_neg h2, if_neg (by simp [h1, h2])]

/-- C9: cleanup walks every name the map pool returned, never returns an
error (failed deletions are swallowed after logging), and afterwards none of
the map pool's record names resolves in the store, while unrelated entries
are untouched. -/
theorem cleanup_spec (store : Store) (sched : List Nat) :
    cleanup_intermediate_files store (mapPhaseNames sched)
        = Except.ok (eraseAll store (mapPhaseNames sched))
    ∧ (∀ nm, nm ∈ mapPhaseNames sched →
        alookup (eraseAll store (mapPhaseNames sched)) nm = none)
    ∧ (∀ nm, nm ∉ mapPhaseNames sched →
        alookup (eraseAll store (mapPhaseNames sched)) nm = alookup store nm) := by
  refine ⟨?_, ?_, ?_⟩
  · rw [cleanup_intermediate_files, cleanup_fold_eq]
  · intro nm hnm
    rw [alookup_eraseAll, if_pos hnm]
  · intro nm hnm
    rw [alookup_eraseAll, if_neg hnm]

/-- Witness for C9: a store holding the two slot files of schedule [0, 1]
plus an unrelated file; cleanup removes exactly the slot files. -/
theorem cleanup_spec_witness :
    alookup
        (eraseAll [(str "map_0.txt", str "a 1\n"), (str "map_1.txt", str "b 2\n"),
          (str "final_result.txt", str "x 9\n")] (mapPhaseNames [0, 1]))
        (str "map_0.txt") = none
    ∧ alookup
        (eraseAll [(str "map_0.txt", str "a 1\n"), (str "map_1.txt", str "b 2\n"),
          (str "final_result.txt", str "x 9\n")] (mapPhaseNames [0, 1]))
        (str "final_result.txt")
      = alookup [(str "map_0.txt", str "a 1\n"), (str "map_1.txt", str "b 2\n"),
          (str "final_result.txt", str "x 9\n")] (str "final_result.txt") :=
  ⟨(cleanup_spec [(str "map_0.txt", str "a 1\n"), (str "map_1.txt", str "b 2\n"),
      (str "final_result.txt", str "x 9\n")] [0, 1]).2.1 (str "map_0.txt") (by decide),
    (cleanup_spec [(str "map_0.txt", str "a 1\n"), (str "map_1.txt", str "b 2\n"),
      (str "final_result.txt", str "x 9\n")] [0, 1]).2.2 (str "final_result.txt") (by decide)⟩

end MapOxidize
